import Mathlib

/-!
Shallow embedding of the OpenAFS shell-like tokenizer/serializer pair
(`src/cmd/cmd_tokens.c`): `cmd_Tokenize`, `cmd_Split`, `cmd_FreeSplit`,
the expandable token buffer (`init_token_buffer`, `clear_token_buffer`,
`accept_char`), and the serializer `cmd_Join` (only its tests appear in
the repository, so it is modelled from the specification).

Strings are modelled as `List Char` (the bytes of a C string up to, and
excluding, its terminating NUL).  A `'\x00'` appearing inside the list is
treated exactly as the C scanner treats it: it ends the input.  Heap
allocation is modelled as infallible in the functional layer; the
byte-level token-buffer layer models the `size_t` arithmetic of buffer
growth exactly, including wrap-around of `2 * buffer_size`.
-/

namespace AfsCmd

/-- POSIX `ENOMEM` (out of memory), as returned by the C code. -/
def ENOMEM : Int := 12

/-- The `com_err` code `CMD_BADFORMAT` from the cmd error table.  The
claims depend only on this value being nonzero and distinct from
`ENOMEM`. -/
def CMD_BADFORMAT : Int := 3359756

/-- The NUL byte that terminates a C string. -/
def nulChar : Char := '\x00'

/-- Whitespace recognized between and after tokens: the `' '`, `'\t'`,
`'\r'`, `'\n'` cases of the scanner's switch statements. -/
def isWs (c : Char) : Bool :=
  c == ' ' || c == '\t' || c == '\r' || c == '\n'

/-! ## Byte-level token buffer (`struct token_buffer`)

`token_start` is the base of the allocation; we model the buffer contents
as a function from offsets (relative to `token_start`) to bytes, and
`token_end` as the offset of the C `token_end` pointer from
`token_start`, so `token_start <= token_end` holds by construction and
`token_end - token_start` is the `token_end` field below. -/

/-- Width of `size_t` arithmetic (64-bit platforms): `2 * buffer_size`
in `accept_char` is computed modulo this. -/
def SIZE_T_MOD : Nat := 2 ^ 64

/-- Initial token buffer allocation size (`TOKEN_BUFFER_INITIAL_SIZE`). -/
def TOKEN_BUFFER_INITIAL_SIZE : Nat := 128

/-- Expandable token string buffer (`struct token_buffer`). -/
structure token_buffer where
  mem : Nat → Char
  token_end : Nat
  buffer_size : Nat

/-- Initialize an expandable token buffer: `calloc` of
`TOKEN_BUFFER_INITIAL_SIZE` zeroed bytes, `token_end = token_start`.
(The `calloc` failure path returns `ENOMEM` in C; allocation is modelled
as infallible.) -/
def init_token_buffer : token_buffer :=
  { mem := fun _ => nulChar
    token_end := 0
    buffer_size := TOKEN_BUFFER_INITIAL_SIZE }

/-- Clear the token buffer in preparation for the next token:
`memset(token_start, 0, buffer_size)` and reset `token_end`. -/
def clear_token_buffer (tb : token_buffer) : token_buffer :=
  { mem := fun i => if i < tb.buffer_size then nulChar else tb.mem i
    token_end := 0
    buffer_size := tb.buffer_size }

/-- Reallocate a buffer and clear the newly allocated memory region
(`realloc_clear`): contents below `old_size` are preserved and the
region `[old_size, new_size)` is zero-filled. -/
def realloc_clear (mem : Nat → Char) (old_size new_size : Nat) : Nat → Char :=
  fun i => if old_size ≤ i ∧ i < new_size then nulChar else mem i

/-- Add a character to the token buffer (`accept_char`).  If the buffer
is full (`token_length + 1 == buffer_size`) it is grown to
`2 * buffer_size`, computed in `size_t` arithmetic; if the doubled size
wrapped (`new_size <= buffer_size`) the function fails with `ENOMEM`.
Then the character is written at `token_end` and `token_end` is
incremented. -/
def accept_char (tb : token_buffer) (ch : Char) : Except Int token_buffer :=
  let token_length := tb.token_end
  let grown : Except Int token_buffer :=
    if token_length + 1 = tb.buffer_size then
      let new_size := 2 * tb.buffer_size % SIZE_T_MOD
      if new_size ≤ tb.buffer_size then
        Except.error ENOMEM  -- Size count overflowed.
      else
        Except.ok { mem := realloc_clear tb.mem tb.buffer_size new_size
                    token_end := token_length
                    buffer_size := new_size }
    else
      Except.ok tb
  match grown with
  | Except.error e => Except.error e
  | Except.ok tb' =>
      Except.ok { mem := fun i => if i = tb'.token_end then ch else tb'.mem i
                  token_end := tb'.token_end + 1
                  buffer_size := tb'.buffer_size }

/-- The buffer invariant maintained by the token-buffer operations:
the accumulated token fits strictly inside the allocation, every byte
from `token_end` to the end of the allocation is zero, and every byte
before `token_end` is nonzero. -/
def TBInv (tb : token_buffer) : Prop :=
  0 < tb.buffer_size ∧
  tb.token_end < tb.buffer_size ∧
  (∀ i, tb.token_end ≤ i → i < tb.buffer_size → tb.mem i = nulChar) ∧
  (∀ i, i < tb.token_end → tb.mem i ≠ nulChar)

/-- Read a NUL-terminated C string out of memory, starting at `start`,
scanning at most `fuel` bytes.  This is what `strdup(tb.token_start)`
copies when applied to the token buffer. -/
def read_c_str (mem : Nat → Char) (start fuel : Nat) : List Char :=
  match fuel with
  | 0 => []
  | fuel' + 1 =>
      if mem start = nulChar then []
      else mem start :: read_c_str mem (start + 1) fuel'

/-- The C string currently held by the token buffer. -/
def tb_str (tb : token_buffer) : List Char :=
  read_c_str tb.mem 0 tb.buffer_size

/-! ## The lexer (`cmd_Tokenize`) -/

/-- The scanner states of `cmd_Tokenize` that can consume a character.
(`STATE_END` and `STATE_ERROR` terminate the scanning loop and are
represented by returning a `lex_result`.) -/
inductive token_state where
  | delim   -- Reading whitespace between tokens.
  | bare    -- Reading unquoted token characters.
  | squote  -- Reading single quoted token characters.
  | dquote  -- Reading double quoted token characters.
  | esc     -- Character following backslash.
  | qesc    -- Character following backslash in double quoted.
deriving DecidableEq

/-- How one run of the scanning loop terminates, together with the final
state of the callback context (`rock`).  Each constructor corresponds to
one exit site of the C code: `finished` is `STATE_END` (return code 0);
`noClosingQuote` is the `'\0'` case of `STATE_SQUOTE`/`STATE_DQUOTE`
("No closing quote", return `CMD_BADFORMAT`); `noEscapedChar` is the
`'\0'` case of `STATE_ESC`/`STATE_QESC` ("No escaped character", return
`CMD_BADFORMAT`); `emitFailed code` is the `goto fail` taken when the
emit callback returns the nonzero `code`, which is returned unchanged. -/
inductive lex_result (ρ : Type) where
  | finished (rock : ρ)
  | noClosingQuote (rock : ρ)
  | noEscapedChar (rock : ρ)
  | emitFailed (code : Int) (rock : ρ)
deriving DecidableEq

/-- The integer code returned by `cmd_Tokenize` for each exit site. -/
def resultCode {ρ : Type} : lex_result ρ → Int
  | .finished _ => 0
  | .noClosingQuote _ => CMD_BADFORMAT
  | .noEscapedChar _ => CMD_BADFORMAT
  | .emitFailed code _ => code

/-- The final callback context of a run. -/
def resultRock {ρ : Type} : lex_result ρ → ρ
  | .finished rock => rock
  | .noClosingQuote rock => rock
  | .noEscapedChar rock => rock
  | .emitFailed _ rock => rock

/-- Type of the emit callback: it receives the (copied) token string and
the callback context and returns a status code together with the updated
context. -/
abbrev EmitFn (ρ : Type) := List Char → ρ → Int × ρ

/-- The `'\0'` cases of the scanner: what `cmd_Tokenize` does when the
current character is the string terminator, for each state.  In
`STATE_BARE` the buffered token is emitted (unless the callback is NULL)
before reaching `STATE_END`. -/
def tokenizeEnd {ρ : Type} (emit? : Option (EmitFn ρ)) :
    token_state → List Char → ρ → lex_result ρ
  | .delim, _, rock => .finished rock
  | .bare, buf, rock =>
      match emit? with
      | none => .finished rock
      | some emit =>
          let p := emit buf rock
          if p.1 = 0 then .finished p.2 else .emitFailed p.1 p.2
  | .squote, _, rock => .noClosingQuote rock
  | .dquote, _, rock => .noClosingQuote rock
  | .esc, _, rock => .noEscapedChar rock
  | .qesc, _, rock => .noEscapedChar rock

/-- The scanning loop of `cmd_Tokenize`.  `buf` is the current token
buffer contents (`tb.token_start` .. `tb.token_end`); `accept_char` and
`strdup` are modelled as infallible, and `clear_token_buffer` as passing
on the empty buffer.  One character is consumed per iteration, exactly
as `tp++` does. -/
def tokenizeGo {ρ : Type} (emit? : Option (EmitFn ρ)) :
    token_state → List Char → ρ → List Char → lex_result ρ
  | st, buf, rock, [] => tokenizeEnd emit? st buf rock
  | st, buf, rock, c :: rest =>
      if c = nulChar then tokenizeEnd emit? st buf rock
      else
        match st with
        | .delim =>
            if isWs c then
              tokenizeGo emit? .delim buf rock rest  -- Skip whitespace.
            else if c = '\'' then tokenizeGo emit? .squote buf rock rest
            else if c = '"' then tokenizeGo emit? .dquote buf rock rest
            else if c = '\\' then tokenizeGo emit? .esc buf rock rest
            else tokenizeGo emit? .bare (buf ++ [c]) rock rest
        | .bare =>
            if isWs c then
              match emit? with
              | none => tokenizeGo emit? .delim [] rock rest
              | some emit =>
                  let p := emit buf rock
                  if p.1 = 0 then tokenizeGo emit? .delim [] p.2 rest
                  else .emitFailed p.1 p.2
            else if c = '\'' then tokenizeGo emit? .squote buf rock rest
            else if c = '"' then tokenizeGo emit? .dquote buf rock rest
            else if c = '\\' then tokenizeGo emit? .esc buf rock rest
            else tokenizeGo emit? .bare (buf ++ [c]) rock rest
        | .squote =>
            if c = '\'' then tokenizeGo emit? .bare buf rock rest
            else tokenizeGo emit? .squote (buf ++ [c]) rock rest
        | .dquote =>
            if c = '"' then tokenizeGo emit? .bare buf rock rest
            else if c = '\\' then tokenizeGo emit? .qesc buf rock rest
            else tokenizeGo emit? .dquote (buf ++ [c]) rock rest
        | .esc => tokenizeGo emit? .bare (buf ++ [c]) rock rest
        | .qesc => tokenizeGo emit? .dquote (buf ++ [c]) rock rest

/-- Lexical analyzer for shell-like syntax (`cmd_Tokenize`): returns the
status code and the final callback context. -/
def cmd_Tokenize {ρ : Type} (text : List Char) (emit? : Option (EmitFn ρ))
    (rock : ρ) : Int × ρ :=
  let r := tokenizeGo emit? .delim [] rock text
  (resultCode r, resultRock r)

/-! ## The collector (`cmd_Split`, `cmd_FreeSplit`) -/

/-- Append a token to a list (`append_token`): the emit callback
registered by `cmd_Split`.  The C version allocates a queue node
(failing with `ENOMEM` on allocation failure, modelled as infallible)
and appends it, incrementing the count. -/
def append_token (token : List Char) (tokens : List (List Char)) :
    Int × List (List Char) :=
  (0, tokens ++ [token])

/-- One run of the scanner with the `append_token` collector, starting
from an empty token list. -/
def splitRun (text : List Char) : lex_result (List (List Char)) :=
  tokenizeGo (some append_token) .delim [] [] text

/-- Split a string using a shell-like syntax (`cmd_Split`): returns
`(code, *pargc, *pargv)`.  On success the queue of tokens is converted,
in order, to the argument vector; on failure every accumulated token is
freed and `*pargc = 0`, `*pargv = NULL` (modelled as `none`). -/
def cmd_Split (text : List Char) : Int × Nat × Option (List (List Char)) :=
  let r := splitRun text
  if resultCode r = 0 then
    (0, (resultRock r).length, some (resultRock r))
  else
    (resultCode r, 0, none)

/-- Free the string vector returned from `cmd_Split` (`cmd_FreeSplit`),
modelled as the transformation of the caller's `*pargv` variable: if it
is non-NULL, every token and the vector itself are freed and `*pargv`
is set to NULL; if it is already NULL, nothing happens. -/
def cmd_FreeSplit (pargv : Option (List (List Char))) :
    Option (List (List Char)) :=
  match pargv with
  | none => none
  | some _ => none

/-! ## The serializer (`cmd_Join`)

Modelled from the spec: `cmd_Join` (the Quoter, spec section 4.3) is part
of this repository but its implementation is not under `src/`; only its
test suite (`tests/cmd/join-t.c`) is.  The definitions below follow the
spec's words: per token, quote if the token is empty or contains any
character outside the unquoted-safe alphabet (alphanumerics plus the
conservative allowlist `, . - _ / : @`); the quoted form wraps the token
in single quotes, emitting an embedded single quote by closing the
current single-quoted segment, writing the quote character wrapped in
double quotes, and reopening (`'...'` + `"'"` + `'...'`); tokens are
separated by one space, with no trailing separator, and the empty token
list serializes to the empty string. -/

/-- Modelled from the spec: the unquoted-safe alphabet of the Quoter
(alphanumerics plus `, . - _ / : @`). -/
def safe_char (c : Char) : Bool :=
  ('a' ≤ c && c ≤ 'z') || ('A' ≤ c && c ≤ 'Z') || ('0' ≤ c && c ≤ '9') ||
  c == ',' || c == '.' || c == '-' || c == '_' || c == '/' || c == ':' ||
  c == '@'

/-- Modelled from the spec: a token is quoted when it is empty or
contains a character outside the unquoted-safe alphabet. -/
def needs_quoting (token : List Char) : Bool :=
  token.isEmpty || token.any (fun c => !safe_char c)

/-- Modelled from the spec: how one character is rendered inside a
single-quoted segment — an embedded single quote closes the segment,
emits `"'"`, and reopens; every other byte is copied verbatim. -/
def quote_char (c : Char) : List Char :=
  if c = '\'' then ['\'', '"', '\'', '"', '\''] else [c]

/-- Modelled from the spec: the body of a single-quoted rendering. -/
def quote_body : List Char → List Char
  | [] => []
  | c :: t => quote_char c ++ quote_body t

/-- Modelled from the spec: render one token, quoted if required. -/
def quote_token (token : List Char) : List Char :=
  if needs_quoting token then '\'' :: (quote_body token ++ ['\''])
  else token

/-- Modelled from the spec: `cmd_Join` — serialize an argument vector to
one line, separating tokens by one space. -/
def cmd_Join : List (List Char) → List Char
  | [] => []
  | [t] => quote_token t
  | t :: ts => quote_token t ++ ' ' :: cmd_Join ts

/-! ## Derived notions used by the statements -/

/-- Apply a function to the callback context carried by a `lex_result`,
leaving the exit site unchanged. -/
def map_rock {α β : Type} (f : α → β) : lex_result α → lex_result β
  | .finished rock => .finished (f rock)
  | .noClosingQuote rock => .noClosingQuote (f rock)
  | .noEscapedChar rock => .noEscapedChar (f rock)
  | .emitFailed code rock => .emitFailed code (f rock)

/-- Reference fold describing the emit protocol: the callback is applied
to each listed token in order, threading the context, and the first
nonzero status stops the fold and is returned unchanged. -/
def emit_fold {ρ : Type} (emit : EmitFn ρ) : List (List Char) → ρ → Int × ρ
  | [], rock => ((0 : Int), rock)
  | t :: ts, rock =>
      let p := emit t rock
      if p.1 = 0 then emit_fold emit ts p.2 else p

/-- What a run with an arbitrary emit callback must equal, expressed
from the collector run `p`: fold the callback over the completed tokens,
stopping at the first nonzero status (which is returned unchanged); if
the fold completes, the exit site of `p` is reproduced with the folded
context. -/
def emit_decomp {ρ : Type} (emit : EmitFn ρ) (rock : ρ)
    (p : lex_result (List (List Char))) : lex_result ρ :=
  let fr := emit_fold emit (resultRock p) rock
  if fr.1 = 0 then map_rock (fun _ => fr.2) p
  else .emitFailed fr.1 fr.2

/-- The completed tokens of an input, left to right: every token the
scanner finishes before reaching its exit site. -/
def tokens_of (text : List Char) : List (List Char) :=
  resultRock (splitRun text)

/-- The status code determined by the grammar alone (the code of the run
whose emit callback always succeeds). -/
def lex_code (text : List Char) : Int :=
  resultCode (splitRun text)

/-! ## Character-class lemmas -/

theorem isWs_iff {c : Char} :
    isWs c = true ↔ c = ' ' ∨ c = '\t' ∨ c = '\r' ∨ c = '\n' := by
  simp [isWs, or_assoc]

theorem isWs_ne_nul {c : Char} (h : isWs c = true) : c ≠ nulChar := by
  rcases isWs_iff.mp h with rfl | rfl | rfl | rfl <;> decide

theorem safe_char_spec {c : Char} (h : safe_char c = true) :
    c ≠ nulChar ∧ isWs c = false ∧ c ≠ '\'' ∧ c ≠ '"' ∧ c ≠ '\\' := by
  refine ⟨?_, ?_, ?_, ?_, ?_⟩
  · rintro rfl; exact absurd h (by decide)
  · rcases hw : isWs c with _ | _
    · rfl
    · rcases isWs_iff.mp hw with rfl | rfl | rfl | rfl <;> exact absurd h (by decide)
  · rintro rfl; exact absurd h (by decide)
  · rintro rfl; exact absurd h (by decide)
  · rintro rfl; exact absurd h (by decide)

/-! ## Single-step lemmas for the scanner -/

section StepLemmas

variable {ρ : Type} (e? : Option (EmitFn ρ)) (buf : List Char) (rock : ρ)
variable (rest : List Char)

theorem go_nil (st : token_state) :
    tokenizeGo e? st buf rock [] = tokenizeEnd e? st buf rock := rfl

theorem go_nul {c : Char} (hc : c = nulChar) (st : token_state) :
    tokenizeGo e? st buf rock (c :: rest) = tokenizeEnd e? st buf rock := by
  subst hc; simp [tokenizeGo]

theorem go_delim_ws {c : Char} (h : isWs c = true) :
    tokenizeGo e? .delim buf rock (c :: rest) =
      tokenizeGo e? .delim buf rock rest := by
  simp [tokenizeGo, isWs_ne_nul h, h]

theorem go_delim_sq :
    tokenizeGo e? .delim buf rock ('\'' :: rest) =
      tokenizeGo e? .squote buf rock rest := rfl

theorem go_delim_dq :
    tokenizeGo e? .delim buf rock ('"' :: rest) =
      tokenizeGo e? .dquote buf rock rest := rfl

theorem go_delim_bs :
    tokenizeGo e? .delim buf rock ('\\' :: rest) =
      tokenizeGo e? .esc buf rock rest := rfl

theorem go_delim_acc {c : Char} (hn : c ≠ nulChar) (hw : isWs c = false)
    (h1 : c ≠ '\'') (h2 : c ≠ '"') (h3 : c ≠ '\\') :
    tokenizeGo e? .delim buf rock (c :: rest) =
      tokenizeGo e? .bare (buf ++ [c]) rock rest := by
  simp [tokenizeGo, hn, hw, h1, h2, h3]

theorem go_bare_sq :
    tokenizeGo e? .bare buf rock ('\'' :: rest) =
      tokenizeGo e? .squote buf rock rest := rfl

theorem go_bare_dq :
    tokenizeGo e? .bare buf rock ('"' :: rest) =
      tokenizeGo e? .dquote buf rock rest := rfl

theorem go_bare_bs :
    tokenizeGo e? .bare buf rock ('\\' :: rest) =
      tokenizeGo e? .esc buf rock rest := rfl

theorem go_bare_acc {c : Char} (hn : c ≠ nulChar) (hw : isWs c = false)
    (h1 : c ≠ '\'') (h2 : c ≠ '"') (h3 : c ≠ '\\') :
    tokenizeGo e? .bare buf rock (c :: rest) =
      tokenizeGo e? .bare (buf ++ [c]) rock rest := by
  simp [tokenizeGo, hn, hw, h1, h2, h3]

theorem go_bare_ws_none {c : Char} (h : isWs c = true) :
    tokenizeGo (none : Option (EmitFn ρ)) .bare buf rock (c :: rest) =
      tokenizeGo none .delim [] rock rest := by
  simp [tokenizeGo, isWs_ne_nul h, h]

theorem go_bare_ws_emit {c : Char} (h : isWs c = true) (emit : EmitFn ρ) :
    tokenizeGo (some emit) .bare buf rock (c :: rest) =
      (let p := emit buf rock
       if p.1 = 0 then tokenizeGo (some emit) .delim [] p.2 rest
       else .emitFailed p.1 p.2) := by
  simp [tokenizeGo, isWs_ne_nul h, h]

theorem go_bare_ws_append {c : Char} (h : isWs c = true)
    (acc : List (List Char)) (buf2 : List Char) :
    tokenizeGo (some append_token) .bare buf2 acc (c :: rest) =
      tokenizeGo (some append_token) .delim [] (acc ++ [buf2]) rest := by
  rw [go_bare_ws_emit buf2 acc rest h append_token]
  simp [append_token]

theorem go_squote_close :
    tokenizeGo e? .squote buf rock ('\'' :: rest) =
      tokenizeGo e? .bare buf rock rest := rfl

theorem go_squote_acc {c : Char} (hn : c ≠ nulChar) (h1 : c ≠ '\'') :
    tokenizeGo e? .squote buf rock (c :: rest) =
      tokenizeGo e? .squote (buf ++ [c]) rock rest := by
  simp [tokenizeGo, hn, h1]

theorem go_dquote_close :
    tokenizeGo e? .dquote buf rock ('"' :: rest) =
      tokenizeGo e? .bare buf rock rest := rfl

theorem go_dquote_bs :
    tokenizeGo e? .dquote buf rock ('\\' :: rest) =
      tokenizeGo e? .qesc buf rock rest := rfl

theorem go_dquote_acc {c : Char} (hn : c ≠ nulChar) (h2 : c ≠ '"')
    (h3 : c ≠ '\\') :
    tokenizeGo e? .dquote buf rock (c :: rest) =
      tokenizeGo e? .dquote (buf ++ [c]) rock rest := by
  simp [tokenizeGo, hn, h2, h3]

theorem go_esc_acc {c : Char} (hn : c ≠ nulChar) :
    tokenizeGo e? .esc buf rock (c :: rest) =
      tokenizeGo e? .bare (buf ++ [c]) rock rest := by
  simp [tokenizeGo, hn]

theorem go_qesc_acc {c : Char} (hn : c ≠ nulChar) :
    tokenizeGo e? .qesc buf rock (c :: rest) =
      tokenizeGo e? .dquote (buf ++ [c]) rock rest := by
  simp [tokenizeGo, hn]

theorem end_bare_append (acc : List (List Char)) :
    tokenizeEnd (some append_token) .bare buf acc =
      .finished (acc ++ [buf]) := by
  simp [tokenizeEnd, append_token]

end StepLemmas

/-! ## Round-trip: scanning the output of the serializer -/

theorem go_bare_safe {ρ : Type} (e? : Option (EmitFn ρ)) :
    ∀ (t : List Char), t.all safe_char = true → ∀ buf rock rest,
      tokenizeGo e? .bare buf rock (t ++ rest) =
        tokenizeGo e? .bare (buf ++ t) rock rest := by
  intro t
  induction t with
  | nil => intro _ buf rock rest; simp
  | cons c t ih =>
      intro hall buf rock rest
      rw [List.all_cons, Bool.and_eq_true] at hall
      obtain ⟨hn, hw, h1, h2, h3⟩ := safe_char_spec hall.1
      rw [List.cons_append, go_bare_acc _ _ _ _ hn hw h1 h2 h3,
        ih hall.2]
      simp

theorem go_squote_body {ρ : Type} (e? : Option (EmitFn ρ)) :
    ∀ (t : List Char), nulChar ∉ t → ∀ buf rock rest,
      tokenizeGo e? .squote buf rock (quote_body t ++ ('\'' :: rest)) =
        tokenizeGo e? .bare (buf ++ t) rock rest := by
  intro t
  induction t with
  | nil =>
      intro _ buf rock rest
      rw [quote_body]
      simp [go_squote_close]
  | cons c t ih =>
      intro hnf buf rock rest
      have hn : c ≠ nulChar := fun hc => hnf (hc ▸ List.mem_cons_self c t)
      have hnf' : nulChar ∉ t := fun hm => hnf (List.mem_cons_of_mem c hm)
      rw [quote_body]
      by_cases hq : c = '\''
      · subst hq
        show tokenizeGo e? .squote buf rock
          ('\'' :: '"' :: '\'' :: '"' :: '\'' ::
            (quote_body t ++ ('\'' :: rest))) = _
        rw [go_squote_close, go_bare_dq,
          go_dquote_acc _ _ _ _ (by decide) (by decide) (by decide),
          go_dquote_close, go_bare_sq, ih hnf']
        simp
      · show tokenizeGo e? .squote buf rock
          ((quote_char c ++ quote_body t) ++ ('\'' :: rest)) = _
        rw [quote_char, if_neg hq]
        show tokenizeGo e? .squote buf rock
          (c :: (quote_body t ++ ('\'' :: rest))) = _
        rw [go_squote_acc _ _ _ _ hn hq, ih hnf']
        simp

theorem go_quote_token {ρ : Type} (e? : Option (EmitFn ρ))
    (t : List Char) (hnf : nulChar ∉ t) (rock : ρ) (rest : List Char) :
    tokenizeGo e? .delim [] rock (quote_token t ++ rest) =
      tokenizeGo e? .bare t rock rest := by
  rw [quote_token]
  by_cases hq : needs_quoting t = true
  · rw [if_pos hq]
    show tokenizeGo e? .delim [] rock
      ('\'' :: ((quote_body t ++ ['\'']) ++ rest)) = _
    rw [List.append_assoc, List.singleton_append, go_delim_sq,
      go_squote_body e? t hnf]
    simp
  · rw [if_neg hq]
    rw [Bool.not_eq_true] at hq
    rw [needs_quoting, Bool.or_eq_false_iff] at hq
    have hall : t.all safe_char = true := by
      rw [List.all_eq_true]
      intro x hx
      have := (List.any_eq_false.mp hq.2) x hx
      simpa using this
    match t, hq with
    | c :: t, hq =>
        rw [List.all_cons, Bool.and_eq_true] at hall
        obtain ⟨hn, hw, h1, h2, h3⟩ := safe_char_spec hall.1
        rw [List.cons_append, go_delim_acc _ _ _ _ hn hw h1 h2 h3,
          go_bare_safe e? t hall.2]
        simp

theorem go_join :
    ∀ (V : List (List Char)) (acc : List (List Char)),
      (∀ t ∈ V, nulChar ∉ t) →
      tokenizeGo (some append_token) .delim [] acc (cmd_Join V) =
        .finished (acc ++ V) := by
  intro V
  induction V with
  | nil => intro acc _; simp [cmd_Join, go_nil, tokenizeEnd]
  | cons t ts ih =>
      intro acc hnf
      have hnt : nulChar ∉ t := hnf t (List.mem_cons_self t ts)
      match ts, ih, hnf with
      | [], _, _ =>
          rw [cmd_Join, ← List.append_nil (quote_token t),
            go_quote_token _ t hnt, go_nil, end_bare_append]
      | t' :: ts', ih, hnf =>
          rw [cmd_Join, go_quote_token _ t hnt,
            go_bare_ws_append _ (by decide) acc t,
            ih (acc ++ [t]) (fun u hu => hnf u (List.mem_cons_of_mem t hu))]
          simp
          simp

/-- C1: round-trip — splitting the line produced by joining any
NUL-free argument vector `V` succeeds and yields exactly `V` again, with
the same count and the same token values in the same order.  (Tokens are
C strings, so they cannot contain the NUL byte.) -/
theorem split_join_roundtrip (V : List (List Char))
    (h : ∀ t ∈ V, nulChar ∉ t) :
    cmd_Split (cmd_Join V) = (0, V.length, some V) := by
  have hrun : splitRun (cmd_Join V) = .finished V := by
    rw [splitRun, go_join V [] h]
    simp
  rw [cmd_Split, hrun]
  simp [resultCode, resultRock]

/-- Witness for C1 at a concrete vector containing an empty string,
whitespace, a single quote, a double quote, and a backslash. -/
theorem split_join_roundtrip_witness :
    cmd_Split (cmd_Join [['d', 'o', 'n', '\'', 't'], ['a', ' ', 'b'], [],
        ['x', '\\', '"', '\n', 'y']]) =
      (0, 4, some [['d', 'o', 'n', '\'', 't'], ['a', ' ', 'b'], [],
        ['x', '\\', '"', '\n', 'y']]) :=
  split_join_roundtrip _ (by decide)

/-! ## Modal quoting (C3) -/

/-- C3 counterexample: the input `a'b c'd'` (with its trailing quote)
does NOT tokenize to one token `ab cd` — the final quote opens a
single-quoted segment that reaches end of input, so `cmd_Tokenize`
returns `CMD_BADFORMAT` and emits no token at all. -/
theorem tokenize_modal_trailing_quote_cex :
    cmd_Tokenize ['a', '\'', 'b', ' ', 'c', '\'', 'd', '\'']
        (some append_token) ([] : List (List Char)) = (CMD_BADFORMAT, []) ∧
    CMD_BADFORMAT ≠ 0 :=
  ⟨by decide, by decide⟩

/-- C3 amended: quoting is modal mid-token — `split("a'b c'd")` yields
the single token list `["ab cd"]`, and tokenizing `a'b c'd` (without a
trailing unbalanced quote) emits the one token `ab cd`. -/
theorem tokenize_modal_concatenation :
    cmd_Split ['a', '\'', 'b', ' ', 'c', '\'', 'd'] =
      (0, 1, some [['a', 'b', ' ', 'c', 'd']]) ∧
    cmd_Tokenize ['a', '\'', 'b', ' ', 'c', '\'', 'd'] (some append_token)
        ([] : List (List Char)) = (0, [['a', 'b', ' ', 'c', 'd']]) :=
  ⟨by decide, by decide⟩

/-! ## Empty and whitespace inputs (C6) -/

theorem go_all_ws :
    ∀ (text : List Char), (∀ c ∈ text, isWs c = true) →
    ∀ (buf : List Char) (acc : List (List Char)),
      tokenizeGo (some append_token) .delim buf acc text = .finished acc := by
  intro text
  induction text with
  | nil => intro _ buf acc; rfl
  | cons c rest ih =>
      intro h buf acc
      have hw : isWs c = true := h c (List.mem_cons_self c rest)
      rw [go_delim_ws _ _ _ _ hw]
      exact ih (fun x hx => h x (List.mem_cons_of_mem c hx)) buf acc

/-- C6: splitting an input that is empty or all whitespace yields the
empty argument vector (never a single empty token), while splitting two
adjacent quote marks of either kind yields exactly one empty token. -/
theorem split_empty_and_quoted_empty :
    (∀ text : List Char, (∀ c ∈ text, isWs c = true) →
      cmd_Split text = (0, 0, some [])) ∧
    cmd_Split ['\'', '\''] = (0, 1, some [[]]) ∧
    cmd_Split ['"', '"'] = (0, 1, some [[]]) := by
  refine ⟨fun text h => ?_, by decide, by decide⟩
  have hrun : splitRun text = .finished [] := go_all_ws text h [] []
  rw [cmd_Split, hrun]
  simp [resultCode, resultRock]

/-- Witness for C6's quantified part at a concrete all-whitespace
input. -/
theorem split_empty_and_quoted_empty_witness :
    cmd_Split [' ', '\t', '\r', '\n'] = (0, 0, some []) :=
  split_empty_and_quoted_empty.1 [' ', '\t', '\r', '\n'] (by decide)

/-! ## Error atomicity of cmd_Split (C7) -/

/-- C7: whenever `cmd_Split` returns a nonzero code, no output vector is
surfaced — `*pargc` is 0 and `*pargv` is NULL, so no partially built
token list reaches the caller. -/
theorem split_error_atomicity (text : List Char)
    (h : (cmd_Split text).1 ≠ 0) :
    (cmd_Split text).2.1 = 0 ∧ (cmd_Split text).2.2 = none := by
  by_cases h0 : resultCode (splitRun text) = 0
  · exact absurd (by simp [cmd_Split, h0]) h
  · simp [cmd_Split, h0]

/-- Witness for C7 at the unterminated-quote input `'`. -/
theorem split_error_atomicity_witness :
    (cmd_Split ['\'']).2.1 = 0 ∧ (cmd_Split ['\'']).2.2 = none :=
  split_error_atomicity ['\''] (by decide)

/-! ## cmd_FreeSplit is idempotent (C8) -/

/-- C8: for every vector produced by `cmd_Split`, `cmd_FreeSplit` leaves
`*pargv` NULL; it is a no-op on an already-NULL vector; and applying it
twice equals applying it once. -/
theorem free_split_idempotent :
    (∀ (text : List Char) (code : Int) (n : Nat) (v : List (List Char)),
      cmd_Split text = (code, n, some v) → cmd_FreeSplit (some v) = none) ∧
    cmd_FreeSplit none = none ∧
    (∀ p, cmd_FreeSplit (cmd_FreeSplit p) = cmd_FreeSplit p) := by
  refine ⟨fun _ _ _ _ _ => rfl, rfl, fun p => ?_⟩
  cases p <;> rfl

/-- Witness for C8 on the vector produced by splitting `hi`. -/
theorem free_split_idempotent_witness :
    cmd_FreeSplit (some [['h', 'i']]) = none :=
  free_split_idempotent.1 ['h', 'i'] 0 1 [['h', 'i']] (by decide)

/-! ## NULL emit callback (C9) -/

theorem end_none_eq_trivial {ρ : Type} (st : token_state) (buf : List Char)
    (rock : ρ) :
    tokenizeEnd (none : Option (EmitFn ρ)) st buf rock =
      tokenizeEnd (some fun _ r => ((0 : Int), r)) st buf rock := by
  cases st <;> simp [tokenizeEnd]

theorem go_none_eq_trivial {ρ : Type} :
    ∀ (text : List Char) (st : token_state) (buf : List Char) (rock : ρ),
      tokenizeGo none st buf rock text =
        tokenizeGo (some fun _ r => ((0 : Int), r)) st buf rock text := by
  intro text
  induction text with
  | nil => intro st buf rock; rw [go_nil, go_nil, end_none_eq_trivial]
  | cons c rest ih =>
      intro st buf rock
      by_cases hc : c = nulChar
      · rw [go_nul _ _ _ _ hc, go_nul _ _ _ _ hc, end_none_eq_trivial]
      · cases st <;> simp only [tokenizeGo, hc, if_false] <;>
          (try split_ifs) <;> apply ih

/-- C9: `cmd_Tokenize` accepts a NULL emit callback, in which case it
scans and validates the whole input without emitting and returns exactly
what a call with an always-succeeding emit callback would return. -/
theorem tokenize_null_emit_validator {ρ : Type} (text : List Char)
    (rock : ρ) :
    cmd_Tokenize text (none : Option (EmitFn ρ)) rock =
      cmd_Tokenize text (some fun _ r => ((0 : Int), r)) rock := by
  rw [cmd_Tokenize, cmd_Tokenize, go_none_eq_trivial]

/-! ## Decomposition of an arbitrary-emit run (C4, C2) -/

theorem map_rock_map_rock {α β γ : Type} (f : β → γ) (g : α → β)
    (x : lex_result α) :
    map_rock f (map_rock g x) = map_rock (fun a => f (g a)) x := by
  cases x <;> rfl

theorem resultRock_map_rock {α β : Type} (f : α → β) (x : lex_result α) :
    resultRock (map_rock f x) = f (resultRock x) := by
  cases x <;> rfl

theorem resultCode_map_rock {α β : Type} (f : α → β) (x : lex_result α) :
    resultCode (map_rock f x) = resultCode x := by
  cases x <;> rfl

/-- The collector run is independent of the tokens already accumulated:
running with accumulator `acc` equals running with an empty accumulator
and prepending `acc` to the final token list. -/
theorem go_append_shift :
    ∀ (text : List Char) (st : token_state) (buf : List Char)
      (acc : List (List Char)),
      tokenizeGo (some append_token) st buf acc text =
        map_rock (fun l => acc ++ l)
          (tokenizeGo (some append_token) st buf [] text) := by
  intro text
  induction text with
  | nil =>
      intro st buf acc
      rw [go_nil, go_nil]
      cases st <;> simp [tokenizeEnd, append_token, map_rock]
  | cons c rest ih =>
      intro st buf acc
      by_cases hc : c = nulChar
      · rw [go_nul _ _ _ _ hc, go_nul _ _ _ _ hc]
        cases st <;> simp [tokenizeEnd, append_token, map_rock]
      · cases st
        · simp only [tokenizeGo, hc, if_false]
          split_ifs <;> exact ih _ _ _
        · by_cases hw : isWs c = true
          · rw [go_bare_ws_append rest hw acc buf,
              go_bare_ws_append rest hw [] buf]
            simp only [List.nil_append]
            rw [ih token_state.delim [] (acc ++ [buf]),
              ih token_state.delim [] [buf], map_rock_map_rock]
            congr 1
            funext l
            simp
          · simp only [tokenizeGo, hc, hw, if_false]
            split_ifs <;> first | exact ih _ _ _ | contradiction
        · simp only [tokenizeGo, hc, if_false]
          split_ifs <;> exact ih _ _ _
        · simp only [tokenizeGo, hc, if_false]
          split_ifs <;> exact ih _ _ _
        · simp only [tokenizeGo, hc, if_false]
          exact ih _ _ _
        · simp only [tokenizeGo, hc, if_false]
          exact ih _ _ _

theorem emit_decomp_shift {ρ : Type} (emit : EmitFn ρ) (rock : ρ)
    (buf : List Char) (p : lex_result (List (List Char))) :
    emit_decomp emit rock (map_rock (fun l => [buf] ++ l) p) =
      (let q := emit buf rock
       if q.1 = 0 then emit_decomp emit q.2 p
       else .emitFailed q.1 q.2) := by
  unfold emit_decomp
  rw [resultRock_map_rock]
  simp only [List.singleton_append]
  rw [emit_fold]
  by_cases h : (emit buf rock).1 = 0 <;>
    simp [h, map_rock_map_rock]

theorem end_emit_decompose {ρ : Type} (st : token_state) (buf : List Char)
    (emit : EmitFn ρ) (rock : ρ) :
    tokenizeEnd (some emit) st buf rock =
      emit_decomp emit rock (tokenizeEnd (some append_token) st buf []) := by
  cases st
  · simp [tokenizeEnd, emit_decomp, emit_fold, resultRock, map_rock]
  · simp only [tokenizeEnd, append_token]
    by_cases h : (emit buf rock).1 = 0 <;>
      simp [h, emit_decomp, emit_fold, resultRock, map_rock]
  · simp [tokenizeEnd, emit_decomp, emit_fold, resultRock, map_rock]
  · simp [tokenizeEnd, emit_decomp, emit_fold, resultRock, map_rock]
  · simp [tokenizeEnd, emit_decomp, emit_fold, resultRock, map_rock]
  · simp [tokenizeEnd, emit_decomp, emit_fold, resultRock, map_rock]

/-- Running the scanner with an arbitrary emit callback equals folding
that callback over the completed tokens of the collector run, stopping
at the first nonzero status. -/
theorem go_emit_decompose {ρ : Type} :
    ∀ (text : List Char) (st : token_state) (buf : List Char)
      (emit : EmitFn ρ) (rock : ρ),
      tokenizeGo (some emit) st buf rock text =
        emit_decomp emit rock
          (tokenizeGo (some append_token) st buf [] text) := by
  intro text
  induction text with
  | nil =>
      intro st buf emit rock
      rw [go_nil, go_nil, end_emit_decompose]
  | cons c rest ih =>
      intro st buf emit rock
      by_cases hc : c = nulChar
      · rw [go_nul _ _ _ _ hc, go_nul _ _ _ _ hc, end_emit_decompose]
      · cases st
        · simp only [tokenizeGo, hc, if_false]
          split_ifs <;> exact ih _ _ _ _
        · by_cases hw : isWs c = true
          · rw [go_bare_ws_emit buf rock rest hw emit,
              go_bare_ws_append rest hw [] buf]
            simp only [List.nil_append]
            rw [go_append_shift rest token_state.delim [] [buf],
              emit_decomp_shift]
            by_cases h : (emit buf rock).1 = 0
            · simp only [h, if_true]
              exact ih _ _ _ _
            · simp [h]
          · simp only [tokenizeGo, hc, hw, if_false]
            split_ifs <;> first | exact ih _ _ _ _ | contradiction
        · simp only [tokenizeGo, hc, if_false]
          split_ifs <;> exact ih _ _ _ _
        · simp only [tokenizeGo, hc, if_false]
          split_ifs <;> exact ih _ _ _ _
        · simp only [tokenizeGo, hc, if_false]
          exact ih _ _ _ _
        · simp only [tokenizeGo, hc, if_false]
          exact ih _ _ _ _

/-- C4: for every input text and every emit callback, `cmd_Tokenize`
calls `emit` once per completed token, left to right, passing its fully
unescaped value (the tokens of the collector run), and if some emit call
returns a nonzero code, tokenization stops immediately — no further
token is emitted — and that code is returned unchanged; if every call
succeeds, the grammar's own status code is returned with the folded
context. -/
theorem tokenize_emit_protocol {ρ : Type} (text : List Char)
    (emit : EmitFn ρ) (rock : ρ) :
    cmd_Tokenize text (some emit) rock =
      (let fr := emit_fold emit (tokens_of text) rock
       if fr.1 = 0 then (lex_code text, fr.2) else fr) := by
  rw [cmd_Tokenize, go_emit_decompose text token_state.delim [] emit rock]
  simp only [tokens_of, lex_code, splitRun, emit_decomp]
  by_cases h : (emit_fold emit
      (resultRock (tokenizeGo (some append_token) token_state.delim [] []
        text)) rock).1 = 0
  · rw [if_pos h, if_pos h]
    simp [resultCode_map_rock, resultRock_map_rock]
  · rw [if_neg h, if_neg h]
    simp [resultCode, resultRock]

/-- The collector callback `append_token` never fails, so a collector
run never exits through the emit-failure site. -/
theorem splitRun_no_emitFailed :
    ∀ (text : List Char) (st : token_state) (buf : List Char)
      (acc : List (List Char)) (code : Int) (r : List (List Char)),
      tokenizeGo (some append_token) st buf acc text ≠
        .emitFailed code r := by
  intro text
  induction text with
  | nil =>
      intro st buf acc code r h
      rw [go_nil] at h
      cases st <;> simp [tokenizeEnd, append_token] at h
  | cons c rest ih =>
      intro st buf acc code r h
      by_cases hc : c = nulChar
      · rw [go_nul _ _ _ _ hc] at h
        cases st <;> simp [tokenizeEnd, append_token] at h
      · cases st
        · simp only [tokenizeGo, hc, if_false] at h
          split_ifs at h <;> exact ih _ _ _ _ _ h
        · by_cases hw : isWs c = true
          · rw [go_bare_ws_append rest hw acc buf] at h
            exact ih _ _ _ _ _ h
          · simp only [tokenizeGo, hc, hw, if_false] at h
            split_ifs at h <;>
              first | exact ih _ _ _ _ _ h | contradiction
        · simp only [tokenizeGo, hc, if_false] at h
          split_ifs at h <;> exact ih _ _ _ _ _ h
        · simp only [tokenizeGo, hc, if_false] at h
          split_ifs at h <;> exact ih _ _ _ _ _ h
        · simp only [tokenizeGo, hc, if_false] at h
          exact ih _ _ _ _ _ h
        · simp only [tokenizeGo, hc, if_false] at h
          exact ih _ _ _ _ _ h

theorem emit_fold_code_mem {ρ : Type} (emit : EmitFn ρ)
    (hE : ∀ t r, (emit t r).1 = 0 ∨ (emit t r).1 = ENOMEM) :
    ∀ (ts : List (List Char)) (rock : ρ),
      (emit_fold emit ts rock).1 = 0 ∨
      (emit_fold emit ts rock).1 = ENOMEM := by
  intro ts
  induction ts with
  | nil => intro rock; left; rfl
  | cons t ts ih =>
      intro rock
      simp only [emit_fold]
      by_cases h : (emit t rock).1 = 0
      · rw [if_pos h]
        exact ih _
      · rw [if_neg h]
        exact hE t rock

/-- C2: with an emit callback that can only fail with `ENOMEM` (as the
collector's `append_token` does on allocation failure), every run of
`cmd_Tokenize` terminates in exactly one of four ways: success, missing
closing quote, unterminated escape, or resource exhaustion — and the
two malformed-input conditions are distinct members of the taxonomy.
No other terminating condition exists. -/
theorem tokenize_terminal_taxonomy {ρ : Type} (text : List Char)
    (emit : EmitFn ρ) (rock : ρ)
    (hE : ∀ t r, (emit t r).1 = 0 ∨ (emit t r).1 = ENOMEM) :
    ((∃ r, tokenizeGo (some emit) .delim [] rock text = .finished r) ∨
     (∃ r, tokenizeGo (some emit) .delim [] rock text =
        .noClosingQuote r) ∨
     (∃ r, tokenizeGo (some emit) .delim [] rock text =
        .noEscapedChar r) ∨
     (∃ r, tokenizeGo (some emit) .delim [] rock text =
        .emitFailed ENOMEM r)) ∧
    ∀ (a b : ρ), lex_result.noClosingQuote a ≠ lex_result.noEscapedChar b := by
  constructor
  · rw [go_emit_decompose text token_state.delim [] emit rock]
    have hnf := splitRun_no_emitFailed text token_state.delim [] []
    generalize hq : tokenizeGo (some append_token) token_state.delim [] []
      text = p at hnf ⊢
    simp only [emit_decomp]
    by_cases h : (emit_fold emit (resultRock p) rock).1 = 0
    · rw [if_pos h]
      rcases p with r | r | r | ⟨cd, r⟩
      · exact Or.inl ⟨_, rfl⟩
      · exact Or.inr (Or.inl ⟨_, rfl⟩)
      · exact Or.inr (Or.inr (Or.inl ⟨_, rfl⟩))
      · exact absurd rfl (hnf cd r)
    · rw [if_neg h]
      rcases emit_fold_code_mem emit hE (resultRock p) rock with h0 | hEn
      · exact absurd h0 h
      · refine Or.inr (Or.inr (Or.inr
          ⟨(emit_fold emit (resultRock p) rock).2, ?_⟩))
        rw [hEn]
  · exact fun a b h => lex_result.noConfusion h

/-- Witness for C2 at the unterminated-quote input `'` with the
collector callback, which never fails. -/
theorem tokenize_terminal_taxonomy_witness :
    ((∃ r, tokenizeGo (some append_token) .delim []
        ([] : List (List Char)) ['\''] = .finished r) ∨
     (∃ r, tokenizeGo (some append_token) .delim []
        ([] : List (List Char)) ['\''] = .noClosingQuote r) ∨
     (∃ r, tokenizeGo (some append_token) .delim []
        ([] : List (List Char)) ['\''] = .noEscapedChar r) ∨
     (∃ r, tokenizeGo (some append_token) .delim []
        ([] : List (List Char)) ['\''] = .emitFailed ENOMEM r)) ∧
    ∀ (a b : List (List Char)),
      lex_result.noClosingQuote a ≠ lex_result.noEscapedChar b :=
  tokenize_terminal_taxonomy ['\''] append_token []
    (fun _ _ => Or.inl rfl)

/-! ## Token-buffer growth and invariant (C5, C10) -/

/-- C5: when `accept_char` finds the buffer full
(`token_length + 1 == buffer_size`) and the doubled size
`2 * buffer_size`, computed in `size_t` arithmetic, is not strictly
greater than the old size (the count wrapped), it fails with `ENOMEM`
and produces no modified buffer. -/
theorem accept_char_overflow_enomem (tb : token_buffer) (ch : Char)
    (hfull : tb.token_end + 1 = tb.buffer_size)
    (hovf : 2 * tb.buffer_size % SIZE_T_MOD ≤ tb.buffer_size) :
    accept_char tb ch = Except.error ENOMEM := by
  simp only [accept_char]
  rw [if_pos hfull, if_pos hovf]

/-- Witness for C5: a buffer of `2^63` bytes holding a `2^63 - 1` byte
token; doubling wraps to 0 in 64-bit `size_t` arithmetic. -/
theorem accept_char_overflow_enomem_witness :
    accept_char ⟨fun _ => nulChar, 2 ^ 63 - 1, 2 ^ 63⟩ 'a' =
      Except.error ENOMEM :=
  accept_char_overflow_enomem _ 'a' (by norm_num)
    (by norm_num [SIZE_T_MOD])

theorem read_c_str_of_inv :
    ∀ (e : Nat) (mem : Nat → Char) (start fuel : Nat), e ≤ fuel →
      (∀ i, i < e → mem (start + i) ≠ nulChar) →
      mem (start + e) = nulChar →
      read_c_str mem start fuel =
        (List.range e).map (fun i => mem (start + i)) := by
  intro e
  induction e with
  | zero =>
      intro mem start fuel _ _ hnul
      cases fuel with
      | zero => simp [read_c_str]
      | succ f =>
          rw [read_c_str, if_pos (by simpa using hnul)]
          simp
  | succ e ih =>
      intro mem start fuel hle hpre hnul
      cases fuel with
      | zero => exact absurd hle (by omega)
      | succ f =>
          have h0 : mem start ≠ nulChar := by
            have := hpre 0 (Nat.succ_pos e)
            simpa using this
          rw [read_c_str, if_neg h0]
          have hpre' : ∀ i, i < e → mem (start + 1 + i) ≠ nulChar := by
            intro i hi
            have hp := hpre (i + 1) (by omega)
            have harr : start + (i + 1) = start + 1 + i := by omega
            rwa [harr] at hp
          have hnul' : mem (start + 1 + e) = nulChar := by
            have harr : start + (e + 1) = start + 1 + e := by omega
            rwa [harr] at hnul
          rw [ih mem (start + 1) f (by omega) hpre' hnul']
          rw [List.range_succ_eq_map, List.map_cons, List.map_map]
          congr 1
          apply List.map_congr_left
          intro i _
          show mem (start + 1 + i) = mem (start + (i + 1))
          congr 1
          omega

theorem TBInv_init : TBInv init_token_buffer := by
  refine ⟨by norm_num [init_token_buffer, TOKEN_BUFFER_INITIAL_SIZE],
    by norm_num [init_token_buffer, TOKEN_BUFFER_INITIAL_SIZE],
    fun i _ _ => rfl, fun i hi => absurd hi (by simp [init_token_buffer])⟩

theorem accept_char_ok_grow (tb : token_buffer) (ch : Char)
    (hfull : tb.token_end + 1 = tb.buffer_size)
    (hovf : ¬ 2 * tb.buffer_size % SIZE_T_MOD ≤ tb.buffer_size) :
    accept_char tb ch = Except.ok
      ⟨fun i => if i = tb.token_end then ch
          else realloc_clear tb.mem tb.buffer_size
            (2 * tb.buffer_size % SIZE_T_MOD) i,
        tb.token_end + 1, 2 * tb.buffer_size % SIZE_T_MOD⟩ := by
  simp only [accept_char]
  rw [if_pos hfull, if_neg hovf]

theorem accept_char_ok_room (tb : token_buffer) (ch : Char)
    (hfull : ¬ tb.token_end + 1 = tb.buffer_size) :
    accept_char tb ch = Except.ok
      ⟨fun i => if i = tb.token_end then ch else tb.mem i,
        tb.token_end + 1, tb.buffer_size⟩ := by
  simp only [accept_char]
  rw [if_neg hfull]

theorem TBInv_accept (tb : token_buffer) (ch : Char) (tb' : token_buffer)
    (hinv : TBInv tb) (hch : ch ≠ nulChar)
    (h : accept_char tb ch = Except.ok tb') : TBInv tb' := by
  obtain ⟨hpos, hlt, hzero, hnz⟩ := hinv
  by_cases hfull : tb.token_end + 1 = tb.buffer_size
  · by_cases hovf : 2 * tb.buffer_size % SIZE_T_MOD ≤ tb.buffer_size
    · rw [accept_char_overflow_enomem tb ch hfull hovf] at h
      simp at h
    · rw [accept_char_ok_grow tb ch hfull hovf] at h
      simp only [Except.ok.injEq] at h
      subst h
      refine ⟨?_, ?_, ?_, ?_⟩
      · show 0 < 2 * tb.buffer_size % SIZE_T_MOD
        omega
      · show tb.token_end + 1 < 2 * tb.buffer_size % SIZE_T_MOD
        omega
      · intro i hi1 hi2
        replace hi1 : tb.token_end + 1 ≤ i := hi1
        replace hi2 : i < 2 * tb.buffer_size % SIZE_T_MOD := hi2
        show (if i = tb.token_end then ch
          else realloc_clear tb.mem tb.buffer_size
            (2 * tb.buffer_size % SIZE_T_MOD) i) = nulChar
        rw [if_neg (by omega), realloc_clear, if_pos ⟨by omega, hi2⟩]
      · intro i hi
        replace hi : i < tb.token_end + 1 := hi
        show (if i = tb.token_end then ch
          else realloc_clear tb.mem tb.buffer_size
            (2 * tb.buffer_size % SIZE_T_MOD) i) ≠ nulChar
        by_cases hie : i = tb.token_end
        · rw [if_pos hie]; exact hch
        · rw [if_neg hie, realloc_clear, if_neg (by omega)]
          exact hnz i (by omega)
  · rw [accept_char_ok_room tb ch hfull] at h
    simp only [Except.ok.injEq] at h
    subst h
    refine ⟨?_, ?_, ?_, ?_⟩
    · exact hpos
    · show tb.token_end + 1 < tb.buffer_size
      omega
    · intro i hi1 hi2
      replace hi1 : tb.token_end + 1 ≤ i := hi1
      replace hi2 : i < tb.buffer_size := hi2
      show (if i = tb.token_end then ch else tb.mem i) = nulChar
      rw [if_neg (by omega)]
      exact hzero i (by omega) hi2
    · intro i hi
      replace hi : i < tb.token_end + 1 := hi
      show (if i = tb.token_end then ch else tb.mem i) ≠ nulChar
      by_cases hie : i = tb.token_end
      · rw [if_pos hie]; exact hch
      · rw [if_neg hie]
        exact hnz i (by omega)

theorem TBInv_clear (tb : token_buffer) (hinv : TBInv tb) :
    TBInv (clear_token_buffer tb) := by
  obtain ⟨hpos, _, _, _⟩ := hinv
  refine ⟨hpos, hpos, fun i _ hi => ?_, fun i hi => ?_⟩
  · replace hi : i < tb.buffer_size := hi
    show (if i < tb.buffer_size then nulChar else tb.mem i) = nulChar
    rw [if_pos hi]
  · replace hi : i < 0 := hi
    exact absurd hi (by omega)

theorem tb_str_of_inv (tb : token_buffer) (hinv : TBInv tb) :
    tb_str tb = (List.range tb.token_end).map tb.mem := by
  obtain ⟨hpos, hlt, hzero, hnz⟩ := hinv
  rw [tb_str, read_c_str_of_inv tb.token_end tb.mem 0 tb.buffer_size
    (le_of_lt hlt) (fun i hi => by simpa using hnz i hi)
    (by simpa using hzero tb.token_end (le_refl _) hlt)]
  apply List.map_congr_left
  intro i _
  simp

/-- C10: the token-buffer invariant — the token fits strictly inside
the allocation and every byte from `token_end` up to
`token_start + buffer_size` is NUL (with every byte before `token_end`
non-NUL) — is established by `init_token_buffer` and preserved by every
successful `accept_char` (the scanner only ever accepts non-NUL bytes)
and by `clear_token_buffer`; consequently the buffer always holds a
NUL-terminated string of length `token_end - token_start`, which is
exactly what emitting the token via `strdup` copies. -/
theorem token_buffer_invariant :
    TBInv init_token_buffer ∧
    (∀ (tb : token_buffer) (ch : Char) (tb' : token_buffer),
      TBInv tb → ch ≠ nulChar → accept_char tb ch = Except.ok tb' →
      TBInv tb') ∧
    (∀ tb : token_buffer, TBInv tb → TBInv (clear_token_buffer tb)) ∧
    (∀ tb : token_buffer, TBInv tb →
      tb_str tb = (List.range tb.token_end).map tb.mem) :=
  ⟨TBInv_init, TBInv_accept, TBInv_clear, tb_str_of_inv⟩

/-- Witness for C10: accepting `'a'` into the freshly initialized
buffer preserves the invariant, as does clearing the fresh buffer. -/
theorem token_buffer_invariant_witness :
    TBInv ⟨fun i => if i = 0 then 'a' else nulChar, 1, 128⟩ ∧
    TBInv (clear_token_buffer init_token_buffer) :=
  ⟨token_buffer_invariant.2.1 init_token_buffer 'a'
      ⟨fun i => if i = 0 then 'a' else nulChar, 1, 128⟩
      token_buffer_invariant.1 (by decide) rfl,
    token_buffer_invariant.2.2.1 init_token_buffer
      token_buffer_invariant.1⟩

end AfsCmd
